import Mathlib

/-!
Shallow embedding of the `min_smallvec` crate (`src/lib.rs`): a `SmallVec`-backed
container `MinSmallVec<T, S>` that caches a pointer to its minimum element.

Modelling choices:
* `SmallVec<[T; S]>` is modelled as `List T`.  The inline capacity `S` and heap
  capacity only influence allocation behaviour, which the value-level model does
  not observe; a separate pointer-level model (`MinSmallVecPtr`) tracks
  allocation generations for the reference-validity analysis.
* `T: PartialOrd` is modelled by `pcmp : T → T → Option Ordering`
  (`PartialOrd::partial_cmp`) and `T: PartialEq` by `beq : T → T → Bool`;
  Rust's `a < b` is `pcmp a b = some .lt`.
* The field `min: Option<NonNull<T>>` is modelled by the value it designates
  (`min : Option T`); reads through the pointer are modelled as yielding the
  designated element's value (the pointer-validity question itself is analysed
  with `MinSmallVecPtr`).
* Panics (the `unwrap` of `get_min()` on `None`, out-of-bounds indexing) are
  modelled by `Option`: `modify_single` returns `none` where the Rust code
  panics.
* Rust `T: Ord` (a lawful total order, `derive(PartialOrd, Ord)`) is
  instantiated by `totalPcmp` over a `LinearOrder`, and `T: Eq` by `eqBeq`.
-/

namespace MinSV

/-- `struct MinSmallVec<T: PartialOrd, const S: usize>` with fields `inner`
(the `SmallVec`) and `min` (the cached minimum, modelled by its value). -/
structure MinSmallVec (T : Type) where
  inner : List T
  min : Option T
  deriving DecidableEq

variable {T : Type} (pcmp : T → T → Option Ordering) (beq : T → T → Bool)

/-- The `try_fold` body of `fn slice_min`, carrying the current candidate:
an undefined comparison aborts with `none`, `Greater` moves the candidate to
the new element, `Less`/`Equal` keep the current candidate. -/
def slice_min_go (m : T) : List T → Option T
  | [] => some m
  | v :: rest =>
    match pcmp m v with
    | none => none
    | some Ordering.gt => slice_min_go v rest
    | some _ => slice_min_go m rest

/-- `fn slice_min<T: PartialOrd>(slice: &[T]) -> Option<NonNull<T>>`:
first element as starting candidate, then the fold over the tail. -/
def slice_min : List T → Option T
  | [] => none
  | x :: rest => slice_min_go pcmp x rest

/-- `fn partial_min(lhs, rhs)`: pointer to the smaller of the two
(`Greater ⇒ rhs`, otherwise `lhs`), `None` if the comparison is undefined. -/
def partial_min (lhs rhs : T) : Option T :=
  (pcmp lhs rhs).map fun ord =>
    match ord with
    | Ordering.gt => rhs
    | _ => lhs

/-- `MinSmallVec::with_capacity(capacity)`: empty buffer, no cached min
(the capacity only pre-sizes the allocation, which values do not observe). -/
def with_capacity (capacity : Nat) : MinSmallVec T :=
  { inner := [], min := none }

/-- `MinSmallVec::new()` = `Default::default()`: empty buffer, no cached min. -/
def new : MinSmallVec T :=
  { inner := [], min := none }

/-- `MinSmallVec::from_slice` (`T: Copy`): copy the elements, cache
`slice_min` of the slice. -/
def from_slice (slice : List T) : MinSmallVec T :=
  { inner := slice, min := slice_min pcmp slice }

/-- `impl FromIterator for MinSmallVec`: collect the iterator, cache
`slice_min` of the collected buffer. -/
def from_iter (l : List T) : MinSmallVec T :=
  { inner := l, min := slice_min pcmp l }

/-- `MinSmallVec::get_min`: the value designated by the cached `min` pointer. -/
def get_min (s : MinSmallVec T) : Option T := s.min

/-- `MinSmallVec::modify`: run the callback on the whole buffer, then
recompute the cached min by a linear scan. -/
def modify (s : MinSmallVec T) (func : List T → List T) : MinSmallVec T :=
  { inner := func s.inner, min := slice_min pcmp (func s.inner) }

/-- `MinSmallVec::modify_single(index, func)`.  A `none` result models a
panic: the `unwrap` of `get_min()` when no minimum is cached, or the
out-of-bounds indexing of `self.inner[index]`.  Otherwise: remember whether
the element at `index` equalled the minimum, mutate it, and either rescan
(`was_min`) or take `partial_min` of the old minimum and the new value. -/
def modify_single (s : MinSmallVec T) (index : Nat) (func : T → T) :
    Option (MinSmallVec T) :=
  match get_min s with
  | none => none
  | some m =>
    match s.inner.get? index with
    | none => none
    | some x =>
      let inner' := s.inner.set index (func x)
      if beq m x then
        some { inner := inner', min := slice_min pcmp inner' }
      else
        some { inner := inner', min := partial_min pcmp m (func x) }

/-- `MinSmallVec::push(value)`: append, then
`if (len == 1) || get_min().is_some_and(|min| pushed < min)` adopt the
pushed element as the new minimum, else keep the `min` field unchanged. -/
def push (s : MinSmallVec T) (value : T) : MinSmallVec T :=
  let inner' := s.inner ++ [value]
  let adopt : Bool :=
    decide (inner'.length = 1) ||
      (match s.min with
       | some m => decide (pcmp value m = some Ordering.lt)
       | none => false)
  { inner := inner', min := if adopt then some value else s.min }

/-- Pushing a whole list one element at a time. -/
def pushAll (s : MinSmallVec T) (l : List T) : MinSmallVec T :=
  l.foldl (push pcmp) s

/-- The `modify` callback that applies `f` to the element at index `i` and
leaves every other element alone. -/
def listModifyAt (i : Nat) (f : T → T) (l : List T) : List T :=
  match l.get? i with
  | some x => l.set i (f x)
  | none => l

/-- `impl PartialEq for MinSmallVec`: `self.get_min().eq(&other.get_min())`,
i.e. structural equality of the two optional minima via `T`'s equality. -/
def msv_eq (A B : MinSmallVec T) : Bool :=
  match get_min A, get_min B with
  | none, none => true
  | some a, some b => beq a b
  | _, _ => false

/-- `impl PartialOrd for MinSmallVec`:
`self.get_min().zip(other.get_min()).and_then(|(s, o)| s.partial_cmp(o))`. -/
def msv_cmp (A B : MinSmallVec T) : Option Ordering :=
  match get_min A, get_min B with
  | some a, some b => pcmp a b
  | _, _ => none

/-- Number of `partial_cmp` calls the `slice_min` fold performs on the tail. -/
def slice_min_go_comps (m : T) : List T → Nat
  | [] => 0
  | v :: rest =>
    match pcmp m v with
    | none => 1
    | some Ordering.gt => 1 + slice_min_go_comps v rest
    | some _ => 1 + slice_min_go_comps m rest

/-- Number of comparisons `slice_min` performs on a slice. -/
def slice_min_comps : List T → Nat
  | [] => 0
  | x :: rest => slice_min_go_comps pcmp x rest

/-- States reachable from the constructors through `push`, `modify` and
(non-panicking) `modify_single` calls. -/
inductive Reachable : MinSmallVec T → Prop where
  | of_with_capacity (n : Nat) : Reachable (with_capacity n)
  | of_new : Reachable new
  | of_from_slice (l : List T) : Reachable (from_slice pcmp l)
  | of_from_iter (l : List T) : Reachable (from_iter pcmp l)
  | of_push (s : MinSmallVec T) (v : T) : Reachable s → Reachable (push pcmp s v)
  | of_modify (s : MinSmallVec T) (f : List T → List T) :
      Reachable s → Reachable (modify pcmp s f)
  | of_modify_single (s : MinSmallVec T) (i : Nat) (f : T → T)
      (s' : MinSmallVec T) :
      Reachable s → modify_single pcmp beq s i f = some s' → Reachable s'

/-- `derive(PartialOrd, Ord)` semantics for a total order:
`partial_cmp(a, b) = Some(cmp(a, b))`. -/
def totalPcmp [LinearOrder T] : T → T → Option Ordering :=
  fun a b =>
    some (if a < b then Ordering.lt else if a = b then Ordering.eq else Ordering.gt)

/-- `T: Eq` semantics: `PartialEq::eq` is structural equality. -/
def eqBeq [DecidableEq T] : T → T → Bool := fun a b => decide (a = b)

/-- A two-element partial order in which the two distinct elements are
incomparable (every element is only comparable to itself). -/
def flagCmp : Bool → Bool → Option Ordering :=
  fun a b => if a = b then some Ordering.eq else none

/-- Index-returning variant of the `slice_min` fold: which element of the
slice the returned `NonNull` pointer designates. -/
def slice_min_idx_go (mi : Nat) (m : T) (i : Nat) : List T → Option Nat
  | [] => some mi
  | v :: rest =>
    match pcmp m v with
    | none => none
    | some Ordering.gt => slice_min_idx_go i v (i + 1) rest
    | some _ => slice_min_idx_go mi m (i + 1) rest

/-- The index of the element `slice_min`'s returned pointer designates. -/
def slice_min_idx : List T → Option Nat
  | [] => none
  | x :: rest => slice_min_idx_go pcmp 0 x 1 rest

/-- Pointer-level model of the container: `gen` is the identity (generation)
of the current backing allocation, `cap` its capacity, and `minRef` the cached
`NonNull` pointer, recorded as the pair (generation of the allocation it
points into, element index).  A `minRef` whose generation differs from `gen`
points into storage that has been freed or vacated by a reallocation. -/
structure MinSmallVecPtr (T : Type) where
  elems : List T
  cap : Nat
  gen : Nat
  minRef : Option (Nat × Nat)
  deriving DecidableEq

/-- Pointer-level `from_slice` for `S = 0`: the elements live in a fresh heap
allocation (generation 0) whose capacity is exactly the element count, and the
cached pointer designates the `slice_min` element of that allocation. -/
def from_slice_ptr (l : List T) : MinSmallVecPtr T :=
  { elems := l, cap := l.length, gen := 0,
    minRef := (slice_min_idx pcmp l).map fun i => (0, i) }

/-- Pointer-level `push`: when the buffer is full the `SmallVec` grows into a
fresh allocation (generation increases) and the old one is freed.  The body
then mirrors `MinSmallVec::push`: `get_min()` dereferences the *old* pointer
(if the reallocation freed its allocation this is a read of freed memory; we
charitably model it as still yielding the designated element's value), and
`min` is set to a fresh pointer to the pushed element only when it is adopted
as the new minimum — otherwise the old pointer is kept as is. -/
def push_ptr (s : MinSmallVecPtr T) (value : T) : MinSmallVecPtr T :=
  let realloc : Bool := decide (s.elems.length = s.cap)
  let gen' := if realloc then s.gen + 1 else s.gen
  let cap' := if realloc then 2 * s.cap + 1 else s.cap
  let elems' := s.elems ++ [value]
  let derefMin : Option T := s.minRef.bind fun r => s.elems.get? r.snd
  let adopt : Bool :=
    decide (elems'.length = 1) ||
      (match derefMin with
       | some m => decide (pcmp value m = some Ordering.lt)
       | none => false)
  { elems := elems', cap := cap', gen := gen',
    minRef := if adopt then some (gen', s.elems.length) else s.minRef }

section Lemmas

/-- Elements of `l.set i w` are `w` or elements of `l`. -/
lemma mem_of_mem_set {l : List T} {i : Nat} {w y : T} (h : y ∈ l.set i w) :
    y = w ∨ y ∈ l := by
  induction l generalizing i with
  | nil => cases h
  | cons a t ih =>
    cases i with
    | zero =>
      rcases List.mem_cons.mp h with h1 | h1
      · exact Or.inl h1
      · exact Or.inr (List.mem_cons_of_mem _ h1)
    | succ j =>
      rcases List.mem_cons.mp h with h1 | h1
      · subst h1; exact Or.inr (List.mem_cons_self _ _)
      · rcases ih h1 with h2 | h2
        · exact Or.inl h2
        · exact Or.inr (List.mem_cons_of_mem _ h2)

/-- Writing `a` at a valid index puts `a` in the list. -/
lemma mem_set_self {l : List T} {i : Nat} (h : i < l.length) (a : T) :
    a ∈ l.set i a := by
  induction l generalizing i with
  | nil => cases h
  | cons x t ih =>
    cases i with
    | zero => exact List.mem_cons_self _ _
    | succ j => exact List.mem_cons_of_mem x (ih (Nat.lt_of_succ_lt_succ h))

/-- An element different from the overwritten one survives a `set`. -/
lemma mem_set_of_mem_ne {l : List T} {i : Nat} {a x w : T}
    (hget : l.get? i = some x) (ha : a ∈ l) (hne : a ≠ x) : a ∈ l.set i w := by
  induction l generalizing i with
  | nil => cases ha
  | cons y t ih =>
    cases i with
    | zero =>
      injection hget with h; subst h
      rcases List.mem_cons.mp ha with h1 | h1
      · exact absurd h1 hne
      · exact List.mem_cons_of_mem _ h1
    | succ j =>
      rcases List.mem_cons.mp ha with h1 | h1
      · subst h1; exact List.mem_cons_self _ _
      · exact List.mem_cons_of_mem _ (ih hget h1)

end Lemmas

section TotalOrder

variable [LinearOrder T]

lemma totalPcmp_lt {a b : T} (h : a < b) : totalPcmp a b = some Ordering.lt := by
  simp [totalPcmp, h]

lemma totalPcmp_eq {a b : T} (h : a = b) : totalPcmp a b = some Ordering.eq := by
  subst h; simp [totalPcmp, lt_irrefl]

lemma totalPcmp_gt {a b : T} (h : b < a) : totalPcmp a b = some Ordering.gt := by
  simp [totalPcmp, not_lt_of_gt h, ne_of_gt h]

/-- Under a total order the `slice_min` fold computes the left fold of `min`. -/
lemma slice_min_go_total (m : T) (l : List T) :
    slice_min_go totalPcmp m l = some (l.foldl min m) := by
  induction l generalizing m with
  | nil => rfl
  | cons v rest ih =>
    rw [List.foldl_cons]
    rcases lt_trichotomy m v with h | h | h
    · rw [min_eq_left h.le]
      simpa [slice_min_go, totalPcmp_lt h] using ih m
    · subst h
      rw [min_self]
      simpa [slice_min_go, totalPcmp_eq rfl] using ih m
    · rw [min_eq_right h.le]
      simpa [slice_min_go, totalPcmp_gt h] using ih v

lemma slice_min_total_cons (x : T) (t : List T) :
    slice_min totalPcmp (x :: t) = some (t.foldl min x) :=
  slice_min_go_total x t

lemma foldl_min_choice (l : List T) (m : T) :
    l.foldl min m = m ∨ l.foldl min m ∈ l := by
  induction l generalizing m with
  | nil => exact Or.inl rfl
  | cons v rest ih =>
    rw [List.foldl_cons]
    rcases ih (min m v) with h | h
    · rcases min_choice m v with hmv | hmv
      · exact Or.inl (h.trans hmv)
      · refine Or.inr ?_
        rw [h, hmv]
        exact List.mem_cons_self v rest
    · exact Or.inr (List.mem_cons_of_mem v h)

lemma foldl_min_le_init (l : List T) (m : T) : l.foldl min m ≤ m := by
  induction l generalizing m with
  | nil => exact le_refl m
  | cons v rest ih =>
    rw [List.foldl_cons]
    exact (ih (min m v)).trans (min_le_left m v)

lemma foldl_min_le_mem (l : List T) (m : T) : ∀ x ∈ l, l.foldl min m ≤ x := by
  induction l generalizing m with
  | nil => exact fun x hx => absurd hx (List.not_mem_nil x)
  | cons v rest ih =>
    intro x hx
    rw [List.foldl_cons]
    rcases List.mem_cons.mp hx with h | h
    · subst h
      exact (foldl_min_le_init rest (min m x)).trans (min_le_right m x)
    · exact ih (min m v) x h

/-- Under a total order `slice_min` returns a member below all members. -/
lemma slice_min_total_spec {l : List T} {m : T}
    (h : slice_min totalPcmp l = some m) : m ∈ l ∧ ∀ y ∈ l, m ≤ y := by
  cases l with
  | nil => cases h
  | cons x t =>
    rw [slice_min_total_cons] at h
    injection h with h
    subst h
    refine ⟨?_, ?_⟩
    · rcases foldl_min_choice t x with h1 | h1
      · rw [h1]; exact List.mem_cons_self x t
      · exact List.mem_cons_of_mem x h1
    · intro y hy
      rcases List.mem_cons.mp hy with h1 | h1
      · subst h1; exact foldl_min_le_init t y
      · exact foldl_min_le_mem t x y h1

lemma slice_min_total_isSome {l : List T} (h : l ≠ []) :
    ∃ m, slice_min totalPcmp l = some m := by
  cases l with
  | nil => exact absurd rfl h
  | cons x t => exact ⟨t.foldl min x, slice_min_total_cons x t⟩

/-- Under a total order, any member below all members is the `slice_min`. -/
lemma slice_min_total_eq_of {l : List T} {a : T}
    (hmem : a ∈ l) (hle : ∀ y ∈ l, a ≤ y) :
    slice_min totalPcmp l = some a := by
  obtain ⟨m, hm⟩ := slice_min_total_isSome (l := l) (by rintro rfl; cases hmem)
  obtain ⟨hm_mem, hm_le⟩ := slice_min_total_spec hm
  rw [hm, le_antisymm (hm_le a hmem) (hle m hm_mem)]

lemma partial_min_total (a b : T) :
    partial_min totalPcmp a b = some (min a b) := by
  rcases lt_trichotomy a b with h | h | h
  · rw [min_eq_left h.le]
    simp [partial_min, totalPcmp_lt h]
  · subst h
    rw [min_self]
    simp [partial_min, totalPcmp_eq rfl]
  · rw [min_eq_right h.le]
    simp [partial_min, totalPcmp_gt h]

/-- `push` preserves `min = slice_min inner` under a total order. -/
lemma push_total_min (s : MinSmallVec T) (v : T)
    (h : s.min = slice_min totalPcmp s.inner) :
    (push totalPcmp s v).min = slice_min totalPcmp (s.inner ++ [v]) := by
  cases s with
  | mk l mo =>
    dsimp at h
    cases l with
    | nil =>
      subst h
      rfl
    | cons x t =>
      rw [slice_min_total_cons] at h
      subst h
      have hfold : slice_min totalPcmp ((x :: t) ++ [v])
          = some (min (t.foldl min x) v) := by
        rw [List.cons_append, slice_min_total_cons, List.foldl_append]
        rfl
      have hlen : ¬ ((x :: t) ++ [v]).length = 1 := by
        simp [List.length_append]
      rw [hfold]
      by_cases hv : v < t.foldl min x
      · simp [push, hlen, totalPcmp_lt hv, min_eq_right hv.le]
      · have hle : t.foldl min x ≤ v := not_lt.mp hv
        have hne : totalPcmp v (t.foldl min x) ≠ some Ordering.lt := by
          rcases eq_or_lt_of_le hle with h1 | h1
          · rw [totalPcmp_eq h1.symm]; simp
          · rw [totalPcmp_gt h1]; simp
        simp [push, hlen, hne, min_eq_left hle]

/-- Under a total order, a `modify_single` call with a valid index on a
buffer satisfying the cached-min invariant succeeds, and its result is the
mutated buffer with the fully rescanned minimum — in the `was_min` branch by
definition, in the other branch because `partial_min` of the old minimum and
the new value coincides with the rescan. -/
lemma modify_single_total [DecidableEq T] (s : MinSmallVec T) (i : Nat)
    (f : T → T) (hinv : s.min = slice_min totalPcmp s.inner)
    (hi : i < s.inner.length) :
    ∃ x, s.inner.get? i = some x ∧
      modify_single totalPcmp eqBeq s i f
        = some { inner := s.inner.set i (f x),
                 min := slice_min totalPcmp (s.inner.set i (f x)) } := by
  have hne : s.inner ≠ [] := by
    intro h
    rw [h] at hi
    cases hi
  obtain ⟨m, hm⟩ := slice_min_total_isSome hne
  have hmin : s.min = some m := hinv.trans hm
  obtain ⟨x, hx⟩ : ∃ x, s.inner.get? i = some x :=
    ⟨s.inner.get ⟨i, hi⟩, List.get?_eq_get hi⟩
  refine ⟨x, hx, ?_⟩
  unfold modify_single get_min
  rw [hmin, hx]
  by_cases hmx : m = x
  · simp [eqBeq, hmx]
  · obtain ⟨hmem, hle⟩ := slice_min_total_spec hm
    have key : slice_min totalPcmp (s.inner.set i (f x)) = some (min m (f x)) := by
      apply slice_min_total_eq_of
      · rcases le_total m (f x) with h1 | h1
        · rw [min_eq_left h1]
          exact mem_set_of_mem_ne hx hmem hmx
        · rw [min_eq_right h1]
          exact mem_set_self hi (f x)
      · intro y hy
        rcases mem_of_mem_set hy with h1 | h1
        · subst h1; exact min_le_right _ _
        · exact le_trans (min_le_left _ _) (hle y h1)
    simp [eqBeq, hmx, key, partial_min_total]

end TotalOrder

/-- Anatomy of a non-panicking `modify_single` call. -/
lemma modify_single_some {s : MinSmallVec T} {i : Nat} {f : T → T}
    {s' : MinSmallVec T} (h : modify_single pcmp beq s i f = some s') :
    ∃ m x, s.min = some m ∧ s.inner.get? i = some x ∧
      s'.inner = s.inner.set i (f x) ∧
      (beq m x = true → s'.min = slice_min pcmp (s.inner.set i (f x))) ∧
      (beq m x = false → s'.min = partial_min pcmp m (f x)) := by
  unfold modify_single at h
  cases h1 : get_min s with
  | none => rw [h1] at h; simp at h
  | some m =>
    rw [h1] at h
    cases h2 : s.inner.get? i with
    | none => rw [h2] at h; simp at h
    | some x =>
      rw [h2] at h
      refine ⟨m, x, h1, rfl, ?_, ?_, ?_⟩
      · by_cases hb : beq m x <;> simp [hb] at h <;> rw [← h]
      · intro hb
        simp [hb] at h
        rw [← h]
      · intro hb
        simp [hb] at h
        rw [← h]

/-- A non-panicking `modify_single` preserves the element count. -/
lemma modify_single_some_length {s : MinSmallVec T} {i : Nat} {f : T → T}
    {s' : MinSmallVec T} (h : modify_single pcmp beq s i f = some s') :
    s'.inner.length = s.inner.length := by
  obtain ⟨m, x, _, _, hset, _, _⟩ := modify_single_some pcmp beq h
  rw [hset, List.length_set]

/-- Every reachable empty buffer has no cached minimum. -/
lemma reachable_empty_min_none {s : MinSmallVec T}
    (h : Reachable pcmp beq s) (he : s.inner = []) : s.min = none := by
  induction h with
  | of_with_capacity n => rfl
  | of_new => rfl
  | of_from_slice l =>
    dsimp [from_slice] at he ⊢
    rw [he]
    rfl
  | of_from_iter l =>
    dsimp [from_iter] at he ⊢
    rw [he]
    rfl
  | of_push s v hs ih =>
    exact absurd he (by simp [push])
  | of_modify s f hs ih =>
    dsimp [modify] at he ⊢
    rw [he]
    rfl
  | of_modify_single s i f s' hs hms ih =>
    obtain ⟨m, x, _, hget, _, _, _⟩ := modify_single_some pcmp beq hms
    have hlen := modify_single_some_length pcmp beq hms
    rw [he, List.length_nil] at hlen
    have : i < s.inner.length := by
      rcases List.get?_eq_some.mp hget with ⟨hlt, _⟩
      exact hlt
    omega

/-- `min = slice_min inner` holds in every reachable state (total order). -/
lemma reachable_min_eq [LinearOrder T] [DecidableEq T] {s : MinSmallVec T}
    (h : Reachable (totalPcmp) (eqBeq) s) :
    s.min = slice_min totalPcmp s.inner := by
  induction h with
  | of_with_capacity n => rfl
  | of_new => rfl
  | of_from_slice l => rfl
  | of_from_iter l => rfl
  | of_push s v _ ih => exact push_total_min s v ih
  | of_modify s f _ _ => rfl
  | of_modify_single s i f s' _ hms ih =>
    obtain ⟨m, x, hm, hget, _, _, _⟩ := modify_single_some _ _ hms
    have hi : i < s.inner.length := by
      rcases List.get?_eq_some.mp hget with ⟨hlt, _⟩
      exact hlt
    obtain ⟨x2, hx2, heq⟩ := modify_single_total s i f ih hi
    rw [hms] at heq
    injection heq with heq
    rw [heq]

/-- C9: every constructor establishes the cached minimum consistently with a
full linear scan of the resulting contents: `with_capacity n` and `new` give
an empty buffer with `get_min = none` (and `new` equals `with_capacity 0`),
while `from_slice` and `from_iter` hold exactly the given values with
`get_min` equal to the single `slice_min` scan over them. -/
theorem C9_constructors_establish_min (T : Type) (pcmp : T → T → Option Ordering)
    (n : Nat) (l : List T) :
    ((with_capacity (T := T) n).inner = []
      ∧ get_min (with_capacity (T := T) n) = none)
    ∧ new (T := T) = with_capacity (T := T) 0
    ∧ ((from_slice pcmp l).inner = l
      ∧ get_min (from_slice pcmp l) = slice_min pcmp l)
    ∧ ((from_iter pcmp l).inner = l
      ∧ get_min (from_iter pcmp l) = slice_min pcmp l) :=
  ⟨⟨rfl, rfl⟩, rfl, ⟨rfl, rfl⟩, ⟨rfl, rfl⟩⟩

/-- C9 witness: the constructor facts applied at a concrete instantiation. -/
theorem C9_constructors_establish_min_witness :
    (from_slice (totalPcmp (T := Int)) [3, 1, 2]).inner = [3, 1, 2]
    ∧ get_min (from_slice (totalPcmp (T := Int)) [3, 1, 2])
        = slice_min totalPcmp [3, 1, 2] :=
  (C9_constructors_establish_min Int totalPcmp 4 [3, 1, 2]).2.2.1

/-- C6: `slice_min` on the empty sequence is `none` immediately with zero
comparisons performed; otherwise it folds left-to-right starting from the
first element as candidate, replacing the candidate only on `Greater` (the
later element strictly less), keeping the earlier candidate on `Less` and on
`Equal` (ties keep the earlier element), and aborting the whole fold with
`none` on any undefined comparison, whatever the remaining elements are. -/
theorem C6_slice_min_fold_semantics (T : Type) (pcmp : T → T → Option Ordering) :
    (slice_min pcmp ([] : List T) = none ∧ slice_min_comps pcmp ([] : List T) = 0)
    ∧ (∀ a : T, slice_min pcmp [a] = some a)
    ∧ (∀ (a b : T) (t : List T), pcmp a b = none →
        slice_min pcmp (a :: b :: t) = none)
    ∧ (∀ (a b : T) (t : List T), pcmp a b = some Ordering.gt →
        slice_min pcmp (a :: b :: t) = slice_min pcmp (b :: t))
    ∧ (∀ (a b : T) (t : List T), pcmp a b = some Ordering.lt →
        slice_min pcmp (a :: b :: t) = slice_min pcmp (a :: t))
    ∧ (∀ (a b : T) (t : List T), pcmp a b = some Ordering.eq →
        slice_min pcmp (a :: b :: t) = slice_min pcmp (a :: t)) := by
  refine ⟨⟨rfl, rfl⟩, fun a => rfl, ?_, ?_, ?_, ?_⟩
  all_goals intro a b t h
  all_goals simp [slice_min, slice_min_go, h]

/-- C6 witness: an undefined first comparison makes the scan `none`. -/
theorem C6_slice_min_fold_semantics_witness :
    slice_min flagCmp [false, true] = none :=
  (C6_slice_min_fold_semantics Bool flagCmp).2.2.1 false true [] (by decide)

/-- C7: buffer equality is structural equality of the two cached minima
(absent equals absent), buffer comparison is `none` (incomparable) whenever
either minimum is absent and otherwise the comparison of the two minima, and
both relations depend only on the two minima — never on full contents,
lengths, or element order. -/
theorem C7_comparisons_via_cached_min (T : Type) (pcmp : T → T → Option Ordering)
    (beq : T → T → Bool) (hbeq : ∀ a b : T, beq a b = true ↔ a = b) :
    (∀ A B : MinSmallVec T, msv_eq beq A B = true ↔ get_min A = get_min B)
    ∧ (∀ A B : MinSmallVec T, get_min A = none ∨ get_min B = none →
        msv_cmp pcmp A B = none)
    ∧ (∀ (A B : MinSmallVec T) (a b : T),
        get_min A = some a → get_min B = some b → msv_cmp pcmp A B = pcmp a b)
    ∧ (∀ A A2 B B2 : MinSmallVec T, get_min A = get_min A2 →
        get_min B = get_min B2 →
        msv_eq beq A B = msv_eq beq A2 B2 ∧ msv_cmp pcmp A B = msv_cmp pcmp A2 B2) := by
  refine ⟨?_, ?_, ?_, ?_⟩
  · intro A B
    unfold msv_eq
    cases hA : get_min A <;> cases hB : get_min B <;> simp [hbeq]
  · intro A B h
    unfold msv_cmp
    rcases h with h | h <;> rw [h] <;> cases ho : get_min B <;>
      cases ho2 : get_min A <;> rfl
  · intro A B a b ha hb
    unfold msv_cmp
    rw [ha, hb]
  · intro A A2 B B2 h1 h2
    unfold msv_eq msv_cmp
    rw [h1, h2]
    exact ⟨rfl, rfl⟩

/-- C7 witness: buffers built from `[3,1,2]` and `[1,9]` are equal (both
minima are 1). -/
theorem C7_comparisons_via_cached_min_witness :
    msv_eq eqBeq (from_slice (totalPcmp (T := Int)) [3, 1, 2])
      (from_slice totalPcmp [1, 9]) = true :=
  ((C7_comparisons_via_cached_min Int totalPcmp eqBeq
      (fun a b => by simp [eqBeq])).1 _ _).mpr (by decide)

/-- C8: calling `modify_single` on a reachable buffer that is empty, or with
an out-of-range index, panics (modelled by `none`) instead of returning
normally — so it never completes leaving a stale minimum observable. -/
theorem C8_modify_single_fail_fast (T : Type) (pcmp : T → T → Option Ordering)
    (beq : T → T → Bool) (s : MinSmallVec T) (i : Nat) (f : T → T)
    (hs : Reachable pcmp beq s) (h : s.inner = [] ∨ s.inner.length ≤ i) :
    modify_single pcmp beq s i f = none := by
  unfold modify_single
  cases hmin : get_min s with
  | none => rfl
  | some m =>
    rcases h with h | h
    · have hx : s.min = some m := hmin
      rw [reachable_empty_min_none pcmp beq hs h] at hx
      cases hx
    · have hg : s.inner.get? i = none := List.get?_eq_none.mpr h
      rw [hg]

/-- C8 witness: an out-of-range index on a two-element buffer panics. -/
theorem C8_modify_single_fail_fast_witness :
    modify_single (totalPcmp (T := Int)) eqBeq
      (from_slice totalPcmp [1, 2]) 5 id = none :=
  C8_modify_single_fail_fast Int totalPcmp eqBeq (from_slice totalPcmp [1, 2])
    5 id (Reachable.of_from_slice [1, 2]) (Or.inr (by decide))

/-- C10: `modify_single` exists at every partial order (arbitrary `pcmp`),
and whenever the cached minimum is absent the `unwrap` of `get_min()` panics
(modelled by `none`) — in particular on a non-empty buffer whose minimum
collapsed after an undefined comparison, with an in-range index. -/
theorem C10_modify_single_unwrap_absent (T : Type) (pcmp : T → T → Option Ordering)
    (beq : T → T → Bool) (s : MinSmallVec T) (i : Nat) (f : T → T)
    (h : s.min = none) : modify_single pcmp beq s i f = none := by
  unfold modify_single
  have hx : get_min s = none := h
  rw [hx]

/-- Unfolding equation for the `min` field after a `push`. -/
lemma push_min_eq (s : MinSmallVec T) (v : T) :
    (push pcmp s v).min =
      if (decide ((s.inner ++ [v]).length = 1) ||
          (match s.min with
           | some m => decide (pcmp v m = some Ordering.lt)
           | none => false)) then some v else s.min := rfl

/-- A non-empty buffer stays longer than one element after a push. -/
lemma push_len_ne_one {s : MinSmallVec T} (hne : s.inner ≠ []) (v : T) :
    ¬ (s.inner ++ [v]).length = 1 := by
  have h0 : s.inner.length ≠ 0 := fun h0 => hne (List.length_eq_zero.mp h0)
  simp only [List.length_append, List.length_cons, List.length_nil]
  omega

/-- C5: postcondition of `push v`: on an empty buffer `v` becomes the minimum
unconditionally; a present minimum `m` is kept when `pcmp m v` is not
`Greater` (that is, `m ≤ v` or the comparison is undefined) and replaced by
`v` when it is `Greater`; an absent minimum on a non-empty buffer stays
absent (no rescan on this path). -/
theorem C5_push_minimum_update (T : Type) (pcmp : T → T → Option Ordering)
    (hflip : ∀ a b : T, pcmp a b = some Ordering.lt ↔ pcmp b a = some Ordering.gt)
    (s : MinSmallVec T) (v : T) :
    (s.inner = [] → (push pcmp s v).min = some v)
    ∧ (∀ m : T, s.inner ≠ [] → s.min = some m → pcmp m v ≠ some Ordering.gt →
        (push pcmp s v).min = some m)
    ∧ (∀ m : T, s.inner ≠ [] → s.min = some m → pcmp m v = some Ordering.gt →
        (push pcmp s v).min = some v)
    ∧ (s.inner ≠ [] → s.min = none → (push pcmp s v).min = none) := by
  refine ⟨?_, ?_, ?_, ?_⟩
  · intro h
    rw [push_min_eq, h]
    rfl
  · intro m hne hm hgt
    have hlt : ¬ pcmp v m = some Ordering.lt := fun hvm => hgt ((hflip v m).mp hvm)
    simp only [push_min_eq, hm]
    rw [decide_eq_false (push_len_ne_one hne v), decide_eq_false hlt]
    rfl
  · intro m hne hm hgt
    have hlt : pcmp v m = some Ordering.lt := (hflip v m).mpr hgt
    simp only [push_min_eq, hm]
    rw [decide_eq_true hlt]
    simp
  · intro hne hm
    simp only [push_min_eq, hm]
    rw [decide_eq_false (push_len_ne_one hne v)]
    rfl

/-- C5 witness: pushing an incomparable value keeps the present minimum. -/
theorem C5_push_minimum_update_witness :
    (push flagCmp (from_slice flagCmp [true]) false).min = some true :=
  (C5_push_minimum_update Bool flagCmp (by decide)
      (from_slice flagCmp [true]) false).2.1 true (by decide) (by decide)
    (by decide)

/-- C1: in every state reachable through constructors, `push`, `modify` and
`modify_single`, an empty buffer has `get_min = none`; and for a total-order
element type, a non-empty reachable buffer's `get_min` returns a stored
element `e` with no stored element strictly less than `e`. -/
theorem C1_reachable_min_invariant :
    (∀ (T : Type) (pcmp : T → T → Option Ordering) (beq : T → T → Bool)
        (s : MinSmallVec T), Reachable pcmp beq s → s.inner = [] →
        get_min s = none)
    ∧ (∀ (T : Type) [LinearOrder T] [DecidableEq T] (s : MinSmallVec T),
        Reachable totalPcmp eqBeq s → s.inner ≠ [] →
        ∃ e, get_min s = some e ∧ e ∈ s.inner ∧ ∀ x ∈ s.inner, ¬ x < e) := by
  constructor
  · intro T pcmp beq s hs he
    exact reachable_empty_min_none pcmp beq hs he
  · intro T instL instE s hs hne
    have hinv := reachable_min_eq hs
    obtain ⟨m, hm⟩ := slice_min_total_isSome hne
    obtain ⟨hmem, hle⟩ := slice_min_total_spec hm
    exact ⟨m, hinv.trans hm, hmem, fun x hx => not_lt.mpr (hle x hx)⟩

/-- C1 witness: the invariant on a buffer reached by `from_slice` + `push`. -/
theorem C1_reachable_min_invariant_witness :
    ∃ e, get_min (push (totalPcmp (T := Int)) (from_slice totalPcmp [5, 3]) 2)
        = some e
      ∧ e ∈ (push (totalPcmp (T := Int)) (from_slice totalPcmp [5, 3]) 2).inner
      ∧ ∀ x ∈ (push (totalPcmp (T := Int)) (from_slice totalPcmp [5, 3]) 2).inner,
          ¬ x < e :=
  C1_reachable_min_invariant.2 Int
    (push totalPcmp (from_slice totalPcmp [5, 3]) 2)
    (Reachable.of_push _ 2 (Reachable.of_from_slice [5, 3])) (by decide)

/-- C3 counterexample: with the two-element partial order in which the two
distinct values are incomparable, pushing `[false, true]` one by one from an
empty buffer leaves `get_min = some false`, while the full recomputation
`slice_min` over the same stored sequence is `none` — the incremental push
path and the batch recomputation disagree in the partial-order case. -/
theorem C3_partial_push_disagrees :
    get_min (pushAll flagCmp (new (T := Bool)) [false, true])
      ≠ slice_min flagCmp (pushAll flagCmp (new (T := Bool)) [false, true]).inner := by
  decide

/-- C3 (amended): for a total-order element type, after any sequence of
pushes one by one from an empty buffer, `get_min` equals the full `slice_min`
recomputation over the stored sequence, which is exactly the pushed sequence.
(The partial-order half of the original claim fails: once a comparison is
undefined the incremental path can keep a minimum the rescan loses.) -/
theorem C3_push_agrees_with_rescan (T : Type) [LinearOrder T] (l : List T) :
    get_min (pushAll totalPcmp (new (T := T)) l)
      = slice_min totalPcmp (pushAll totalPcmp (new (T := T)) l).inner
    ∧ (pushAll totalPcmp (new (T := T)) l).inner = l := by
  have main : ∀ (t : List T) (s : MinSmallVec T),
      s.min = slice_min totalPcmp s.inner →
      (pushAll totalPcmp s t).min = slice_min totalPcmp (pushAll totalPcmp s t).inner
      ∧ (pushAll totalPcmp s t).inner = s.inner ++ t := by
    intro t
    induction t with
    | nil => exact fun s hs => ⟨hs, (List.append_nil s.inner).symm⟩
    | cons v t2 ih =>
      intro s hs
      have h1 : (push totalPcmp s v).min
          = slice_min totalPcmp (push totalPcmp s v).inner :=
        push_total_min s v hs
      have h2 := ih (push totalPcmp s v) h1
      refine ⟨h2.1, ?_⟩
      rw [show pushAll totalPcmp s (v :: t2) = pushAll totalPcmp (push totalPcmp s v) t2
          from rfl, h2.2, show (push totalPcmp s v).inner = s.inner ++ [v] from rfl,
        List.append_assoc]
      rfl
  obtain ⟨h1, h2⟩ := main l (new (T := T)) rfl
  refine ⟨h1, ?_⟩
  rw [h2]
  exact List.nil_append l

/-- C3 witness: incremental and batch minimum agree on an integer push run. -/
theorem C3_push_agrees_with_rescan_witness :
    get_min (pushAll (totalPcmp (T := Int)) (new (T := Int)) [5, 3, 8])
      = slice_min totalPcmp
          (pushAll (totalPcmp (T := Int)) (new (T := Int)) [5, 3, 8]).inner :=
  (C3_push_agrees_with_rescan Int [5, 3, 8]).1

/-- C4: for a total-order element type, on every reachable buffer and every
in-range index `i` and mutation `f`, `modify_single i f` succeeds and the
minimum observable through `get_min` equals the one after a `modify` call
applying `f` to the element at index `i` on the same starting buffer. -/
theorem C4_modify_single_agrees_with_modify (T : Type) [LinearOrder T]
    [DecidableEq T] (s : MinSmallVec T) (i : Nat) (f : T → T)
    (hs : Reachable totalPcmp eqBeq s) (hi : i < s.inner.length) :
    ∃ s2, modify_single totalPcmp eqBeq s i f = some s2
      ∧ get_min s2 = get_min (modify totalPcmp s (listModifyAt i f)) := by
  have hinv := reachable_min_eq hs
  obtain ⟨x, hx, heq⟩ := modify_single_total s i f hinv hi
  refine ⟨_, heq, ?_⟩
  unfold get_min modify listModifyAt
  rw [hx]

/-- C4 witness: negating the non-minimal element at index 0 of `[5, 3, 8]`
through `modify_single` matches the full `modify` fallback. -/
theorem C4_modify_single_agrees_with_modify_witness :
    ∃ s2, modify_single (totalPcmp (T := Int)) eqBeq
        (from_slice totalPcmp [5, 3, 8]) 0 (fun v => -v) = some s2
      ∧ get_min s2 = get_min (modify totalPcmp (from_slice totalPcmp [5, 3, 8])
          (listModifyAt 0 (fun v => -v))) :=
  C4_modify_single_agrees_with_modify Int (from_slice totalPcmp [5, 3, 8]) 0
    (fun v => -v) (Reachable.of_from_slice [5, 3, 8]) (by decide)

/-- C2 (violated by the code): pushing into a full buffer reallocates the
backing storage (the allocation generation increases) while the cached
minimum pointer — dereferenced during the push and kept unchanged when the
new element is not adopted — still records the old generation: `push`
completes with `minRef` designating the freed allocation (generation 0,
index 0) although the live allocation has generation 1, so the reference was
not refreshed within the operation and `get_min` observes stale storage. -/
theorem C2_push_keeps_stale_reference :
    (push_ptr (totalPcmp (T := Int)) (from_slice_ptr totalPcmp [0]) 1).gen = 1
    ∧ (push_ptr (totalPcmp (T := Int)) (from_slice_ptr totalPcmp [0]) 1).minRef
        = some (0, 0) := by
  constructor
  · rfl
  · rfl

/-- C10 witness: a non-empty partial-order buffer with collapsed minimum and
a valid index still panics in `modify_single`. -/
theorem C10_modify_single_unwrap_absent_witness :
    (from_slice flagCmp [false, true]).inner.length = 2
    ∧ modify_single flagCmp eqBeq (from_slice flagCmp [false, true]) 0 id = none :=
  ⟨by decide,
    C10_modify_single_unwrap_absent Bool flagCmp eqBeq
      (from_slice flagCmp [false, true]) 0 id (by decide)⟩

end MinSV
